import Mathlib

/-!
Verification development for the mimas/mehlon map core
(src/mehlon-server/mapgen.rs and src/mehlon-server/map_storage.rs).

The Rust sources are shallowly embedded:
machine integers are modelled as Nat/Int with explicit reductions mod 2^w
where wrapping matters, fallible operations (including Rust panics such as
unwrap and out-of-bounds slice indexing) are modelled with Option/Except,
and the floating point noise evaluation (the noise crate Perlin fields and
the f64 draws of the tree placement PCG) is abstracted into explicit oracle
parameters, since floating point does not embed.
-/

namespace Mimas

/-!
## PCG32 (the rand_pcg Lcg64Xsh32 generator)

gen_chunk_phase_one (mapgen.rs lines 44-54) seeds all of its pseudo-random
streams from a master Pcg32.  This is a faithful integer-level model of
rand_pcg: 64-bit LCG state, XSH-RR 32-bit output.
-/

structure Pcg32 where
  state : Nat
  increment : Nat
  deriving DecidableEq

def pcgMultiplier : Nat := 6364136223846793005

def pcgStepState (s inc : Nat) : Nat := (s * pcgMultiplier + inc) % 2 ^ 64

/-- Pcg32::new(state, stream): increment = (stream << 1) | 1, initial state
    is state + increment stepped once (all wrapping at 2^64). -/
def Pcg32.new (state stream : Nat) : Pcg32 :=
  let increment := (stream * 2 % 2 ^ 64) + 1
  { state := pcgStepState ((state + increment) % 2 ^ 64) increment
    increment := increment }

/-- u32 rotate right; r is always below 32 here (it is a 5-bit rotation count). -/
def rotr32 (x r : Nat) : Nat := ((x >>> r) ||| (x <<< (32 - r))) % 2 ^ 32

/-- Pcg32 32-bit output: XSH-RR applied to the pre-step state. -/
def Pcg32.nextU32 (p : Pcg32) : Nat × Pcg32 :=
  let s := p.state
  let rot := s >>> 59
  let xsh := (((s >>> 18) ^^^ s) >>> 27) % 2 ^ 32
  (rotr32 xsh rot, { state := pcgStepState s p.increment, increment := p.increment })

/-- rand::RngCore next_u64 for a 32-bit generator: low word drawn first. -/
def Pcg32.nextU64 (p : Pcg32) : Nat × Pcg32 :=
  let (lo, p1) := p.nextU32
  let (hi, p2) := p1.nextU32
  (hi * 2 ^ 32 + lo, p2)

/-- The five pseudo-random streams created at the top of
    gen_chunk_phase_one: four Perlin seeds (u32) and the tree placement
    Pcg32 built from two u64 draws. -/
structure PhaseOneStreams where
  noiseSeed : Nat
  mnoiseSeed : Nat
  smnoiseSeed : Nat
  tnoiseSeed : Nat
  tpcg : Pcg32
  deriving DecidableEq

/-- mapgen.rs lines 45-54: the seeding section of gen_chunk_phase_one.
    The chunk position argument is listed because gen_chunk_phase_one
    receives it, which lets the theorems below ask whether the derived
    streams depend on it. -/
def phaseOneStreams (seed : Nat) (_pos : Int × Int × Int) : PhaseOneStreams :=
  let seeder := Pcg32.new ((seed + 24) % 2 ^ 32) ((seed + 400) % 2 ^ 32)
  let (g1, seeder) := seeder.nextU32
  let (g2, seeder) := seeder.nextU32
  let (g3, seeder) := seeder.nextU32
  let (g4, seeder) := seeder.nextU32
  let (g5, seeder) := seeder.nextU64
  let (g6, _) := seeder.nextU64
  { noiseSeed := g1
    mnoiseSeed := g2
    smnoiseSeed := g3
    tnoiseSeed := g4
    tpcg := Pcg32.new g5 g6 }

/-!
## Block codec and chunk serialization (map_storage.rs lines 122-187)

CHUNKSIZE and the MapBlock enumeration live in map.rs, which is not among
the provided sources; CHUNKSIZE is fixed from the spec, and the ten
MapBlock variants are exactly the ones named by the codec match in
map_storage.rs.  The gzip compressor/decompressor of the flate2 crate is
external code and is abstracted as explicit function parameters.
-/

/-- Modelled from the spec: CHUNKSIZE is defined in map.rs (not among the
    provided sources); section 8 of the spec fixes it to 32. -/
def CHUNKSIZE : Int := 32

/-- CHUNKSIZE cubed, the length of the block array of a chunk. -/
def CHUNKVOL : Nat := 32768

inductive MapBlock
  | Air
  | Water
  | Sand
  | Ground
  | Wood
  | Stone
  | Leaves
  | Tree
  | Cactus
  | Coal
  deriving DecidableEq

/-- map_storage.rs mapblock_to_number. -/
def mapblock_to_number : MapBlock → Nat
  | .Air => 0
  | .Water => 1
  | .Sand => 2
  | .Ground => 3
  | .Wood => 4
  | .Stone => 5
  | .Leaves => 6
  | .Tree => 7
  | .Cactus => 8
  | .Coal => 9

/-- map_storage.rs number_to_mapblock. -/
def number_to_mapblock : Nat → Option MapBlock
  | 0 => some .Air
  | 1 => some .Water
  | 2 => some .Sand
  | 3 => some .Ground
  | 4 => some .Wood
  | 5 => some .Stone
  | 6 => some .Leaves
  | 7 => some .Tree
  | 8 => some .Cactus
  | 9 => some .Coal
  | _ => none

/-- The block array [MapBlock; CHUNKSIZE^3] of MapChunkData, indexed by the
    linear index x * CHUNKSIZE^2 + y * CHUNKSIZE + z. -/
def MapChunkData := Fin CHUNKVOL → MapBlock

/-- MapChunkData::fully_air (map.rs; the default-initialized chunk). -/
def fullyAir : MapChunkData := fun _ => MapBlock.Air

/-- The byte stream obtained by encoding every block of the chunk in linear
    index order (the data.0.iter() loop of serialize_mapchunk_data). -/
def chunkBytes (c : MapChunkData) : List Nat :=
  (List.finRange CHUNKVOL).map (fun i => mapblock_to_number (c i))

/-- map_storage.rs serialize_mapchunk_data: version byte 0 followed by the
    compressed encoded block stream.  The gzip encoder is the parameter. -/
def serialize_mapchunk_data (compress : List Nat → List Nat) (c : MapChunkData) :
    List Nat :=
  0 :: compress (chunkBytes c)

/-- The read loop of deserialize_mapchunk_data: read exactly n bytes from the
    decompressed buffer and decode each through the codec.  Running out of
    bytes is the io error of read_u8, an undecodable byte is the
    invalid-block error. -/
def decodeBlocks : Nat → List Nat → Except String (List MapBlock)
  | 0, _ => .ok []
  | _ + 1, [] => .error "failed to fill whole buffer"
  | n + 1, b :: rest =>
    match number_to_mapblock b with
    | none => .error "invalid block number"
    | some mb => (decodeBlocks n rest).map (fun l => mb :: l)

/-- The decompress-then-decode stage of deserialize_mapchunk_data: a failed
    decompression propagates its error, otherwise exactly CHUNKSIZE^3 blocks
    are decoded from the buffer. -/
def decodeStage (r : Except String (List Nat)) : Except String MapChunkData :=
  match r with
  | .error e => .error e
  | .ok buffer =>
    (decodeBlocks CHUNKVOL buffer).map (fun l => fun i => l.getD i.val MapBlock.Air)

/-- map_storage.rs deserialize_mapchunk_data: check the version byte, then
    decompress (gzip decoder abstracted as the parameter), then decode
    exactly CHUNKSIZE^3 blocks; bytes beyond those are never read. -/
def deserialize_mapchunk_data (decompress : List Nat → Except String (List Nat))
    (data : List Nat) : Except String MapChunkData :=
  match data with
  | [] => .error "failed to fill whole buffer"
  | version :: rest =>
    if version ≠ 0 then
      .error ("Unsupported map chunk version " ++ toString version)
    else
      decodeStage (decompress rest)

/-!
## Database identity check and backend selection (map_storage.rs lines 29-120
and 273-289)

The sqlite connection is abstracted to the two reserved header fields the
code reads and writes through PRAGMA statements: application_id and
user_version.  The filesystem is abstracted to an Option: whether a file
already exists at the configured path, and if so which header it carries.
-/

structure DbHeader where
  application_id : Int
  user_version : Nat
  deriving DecidableEq

/-- The i32 reinterpretation of the u32 magic 0x84eeae3c (high bit set). -/
def MEHLON_SQLITE_APP_ID : Int := 2230234684 - 2 ^ 32

def USER_VERSION : Nat := 1

/-- map_storage.rs init_db, restricted to the header fields (the CREATE
    TABLE statements have no counterpart in this model). -/
def init_db : DbHeader :=
  { application_id := MEHLON_SQLITE_APP_ID, user_version := USER_VERSION }

/-- map_storage.rs expect_user_ver. -/
def expect_user_ver (db : DbHeader) : Except String Unit :=
  if db.application_id ≠ MEHLON_SQLITE_APP_ID then
    .error ("expected app id " ++ toString MEHLON_SQLITE_APP_ID ++ " but was "
      ++ toString db.application_id)
  else if db.user_version ≠ USER_VERSION then
    .error ("expected user_version " ++ toString USER_VERSION ++ " but was "
      ++ toString db.user_version)
  else .ok ()

/-- The two storage backends behind DynStorageBackend: the sqlite backend
    (carrying its header) and NullStorageBackend. -/
inductive Backend
  | sqlite (db : DbHeader)
  | null
  deriving DecidableEq

/-- SqliteStorageBackend::from_conn: initialize a freshly created database,
    or check the identity header of an existing one. -/
def from_conn (db : DbHeader) (freshly_created : Bool) : Except String Backend :=
  if freshly_created then .ok (Backend.sqlite init_db)
  else
    match expect_user_ver db with
    | .error e => .error e
    | .ok _ => .ok (Backend.sqlite db)

/-- SqliteStorageBackend::open_or_create: open without creating first; if
    the file cannot be opened, create it freshly (a fresh sqlite file has
    both header fields zero). -/
def open_or_create (disk : Option DbHeader) : Except String Backend :=
  match disk with
  | some db => from_conn db false
  | none => from_conn { application_id := 0, user_version := 0 } true

/-- The configuration surface: map_storage_path is optionally configured,
    and the path optionally holds an existing database file. -/
structure Config where
  map_storage_path : Option (Option DbHeader)

/-- map_storage.rs sqlite_backend_from_config: any error while opening the
    database is printed and swallowed, yielding None. -/
def sqlite_backend_from_config (config : Config) : Option Backend :=
  match config.map_storage_path with
  | none => none
  | some disk =>
    match open_or_create disk with
    | .ok b => some b
    | .error _ => none

/-- map_storage.rs storage_backend_from_config: fall back to the null
    backend whenever no sqlite backend was produced. -/
def storage_backend_from_config (config : Config) : Backend :=
  (sqlite_backend_from_config config).getD Backend.null

/-- A database written by another application: wrong application id. -/
def foreignDb : DbHeader := { application_id := 0, user_version := 1 }

/-!
## Write-transaction batching (map_storage.rs lines 189-219)

The sqlite connection state relevant to batching is whether a transaction
is open (conn.is_autocommit() is the negation) and the write counter.  The
SQL statements executed are recorded as an event trace.
-/

inductive DbEvent
  | beginTxn
  | commitTxn
  | insertChunk
  deriving DecidableEq

structure TxnState where
  ctr : Nat
  autocommit : Bool
  deriving DecidableEq

def WRITES_PER_TRANSACTION : Nat := 50

/-- The state of a freshly opened SqliteStorageBackend: ctr starts at 0 and
    a fresh connection is in autocommit mode. -/
def initTxnState : TxnState := { ctr := 0, autocommit := true }

/-- map_storage.rs store_chunk, reduced to its transaction management: the
    counter reload/commit block, the automatic BEGIN, and the INSERT. -/
def store_chunk (s : TxnState) : TxnState × List DbEvent :=
  let (s1, evs1) :=
    if s.ctr = 0 then
      if s.autocommit then
        ({ ctr := WRITES_PER_TRANSACTION, autocommit := true }, ([] : List DbEvent))
      else
        ({ ctr := WRITES_PER_TRANSACTION, autocommit := true }, [DbEvent.commitTxn])
    else
      ({ s with ctr := s.ctr - 1 }, [])
  let (s2, evs2) :=
    if s1.autocommit then ({ s1 with autocommit := false }, [DbEvent.beginTxn])
    else (s1, ([] : List DbEvent))
  (s2, evs1 ++ evs2 ++ [DbEvent.insertChunk])

/-- map_storage.rs tick: commit any open transaction and reload the
    counter. -/
def tick (s : TxnState) : TxnState × List DbEvent :=
  if s.autocommit then (s, [])
  else ({ ctr := WRITES_PER_TRANSACTION, autocommit := true }, [DbEvent.commitTxn])

inductive StorageAction
  | store
  | tickAction
  deriving DecidableEq

def backendStep (s : TxnState) : StorageAction → TxnState × List DbEvent
  | .store => store_chunk s
  | .tickAction => tick s

def runBackend : TxnState → List StorageAction → TxnState × List DbEvent
  | s, [] => (s, [])
  | s, a :: rest =>
    let (s1, evs) := backendStep s a
    let (s2, evs2) := runBackend s1 rest
    (s2, evs ++ evs2)

/-- Number of INSERT events since the last BEGIN or COMMIT of the trace,
    together with the maximum that count ever reached. -/
def txnLoads (evs : List DbEvent) : Nat × Nat :=
  evs.foldl
    (fun (p : Nat × Nat) e =>
      match e with
      | .beginTxn => (0, p.2)
      | .commitTxn => (0, p.2)
      | .insertChunk => (p.1 + 1, max p.2 (p.1 + 1)))
    (0, 0)

/-- The per-event update of txnLoads. -/
def loadStep (p : Nat × Nat) (e : DbEvent) : Nat × Nat :=
  match e with
  | .beginTxn => (0, p.2)
  | .commitTxn => (0, p.2)
  | .insertChunk => (p.1 + 1, max p.2 (p.1 + 1))

/-- The batching invariant: in autocommit mode the current transaction is
    empty, inside a transaction the inserts done so far plus the remaining
    counter budget never exceed 51, and the counter never exceeds 50. -/
def GoodTxn (s : TxnState) (cur : Nat) : Prop :=
  (s.autocommit = true → cur = 0) ∧
  (s.autocommit = false → 1 ≤ cur ∧ cur + s.ctr ≤ 51) ∧
  s.ctr ≤ 50

/-!
## The map generator (mapgen.rs lines 11-266)

The in-memory generation cache is an association list from chunk origin to
chunk record (insertion shadows older entries; lookups take the newest).
The floating point evaluation inside gen_chunk_phase_one is abstracted into
a NoiseOracle: elev gives the integer result of the elevation cast at a
world column, treeDensityHigh gives the forest density threshold test, and
treeDraw gives the result of the nth f64 draw of the tree placement Pcg32.
Since that Pcg32 is seeded from the world seed alone (see
phaseOneStreams), its draw sequence is the same in every chunk, which is
why treeDraw is indexed only by the number of draws made so far in the
current chunk.
-/

structure V3 where
  x : Int
  y : Int
  z : Int
  deriving DecidableEq

def V3.add (a b : V3) : V3 := ⟨a.x + b.x, a.y + b.y, a.z + b.z⟩

inductive GenerationPhase
  | PhaseOne
  | PhaseTwo
  | Done
  deriving DecidableEq

/-- The derived Ord of the Rust enum: declaration order. -/
def GenerationPhase.idx : GenerationPhase → Nat
  | .PhaseOne => 0
  | .PhaseTwo => 1
  | .Done => 2

/-- The linear block index used by MapChunk::get_blk and get_blk_mut:
    x * CHUNKSIZE * CHUNKSIZE + y * CHUNKSIZE + z. -/
def linIdx (p : V3) : Int := p.x * CHUNKSIZE * CHUNKSIZE + p.y * CHUNKSIZE + p.z

/-- MapChunk::get_blk: index the block array by the linear formula.  A
    linear index outside the array (a negative value becomes a huge usize)
    panics in Rust, modelled as none. -/
def get_blk (c : MapChunkData) (p : V3) : Option MapBlock :=
  let i := linIdx p
  if h : 0 ≤ i ∧ i.toNat < CHUNKVOL then some (c ⟨i.toNat, h.2⟩) else none

/-- MapChunk::get_blk_mut followed by a write, with the same panic
    condition as get_blk. -/
def set_blk (c : MapChunkData) (p : V3) (v : MapBlock) : Option MapChunkData :=
  let i := linIdx p
  if 0 ≤ i ∧ i.toNat < CHUNKVOL then
    some (fun j => if (j.val : Int) = i then v else c j)
  else none

/-- The in-range write used by the phase-one fill loops, whose coordinates
    all lie inside the chunk so get_blk_mut cannot panic there. -/
def updBlk (c : MapChunkData) (p : V3) (v : MapBlock) : MapChunkData :=
  fun j => if (j.val : Int) = linIdx p then v else c j

structure MapChunk where
  data : MapChunkData
  generation_phase : GenerationPhase
  tree_spawn_points : List V3

/-- The abstraction of the floating point parts of gen_chunk_phase_one. -/
structure NoiseOracle where
  elev : Int → Int → Int
  treeDensityHigh : Int → Int → Bool
  treeDraw : Nat → Bool

/-- The integers from a (inclusive) to b (exclusive), in order: the Rust
    range a .. b. -/
def intRange (a b : Int) : List Int :=
  (List.range (b - a).toNat).map (fun (i : Nat) => a + (i : Int))

/-- The Rust inclusive range a ..= b. -/
def intRangeIncl (a b : Int) : List Int := intRange a (b + 1)

/-- The column iteration order of gen_chunk_phase_one: x outer, y inner. -/
def colList : List (Int × Int) :=
  (intRange 0 CHUNKSIZE).flatMap
    (fun x => (intRange 0 CHUNKSIZE).map (fun y => (x, y)))

structure P1State where
  data : MapChunkData
  tree_spawn_points : List V3
  draws : Nat

/-- The clamped fill height of a column: the elevation minus the chunk
    base, clamped into [0, CHUNKSIZE].  The checked_sub of the source never
    fails for the integer ranges involved, so it is plain subtraction. -/
def iMin (a b : Int) : Int := if a ≤ b then a else b

def iMax (a b : Int) : Int := if b ≤ a then a else b

def elOf (o : NoiseOracle) (pos : V3) (xy : Int × Int) : Int :=
  iMax (iMin (o.elev (pos.x + xy.1) (pos.y + xy.2) - pos.z) CHUNKSIZE) 0

/-- A vertical fill loop of gen_chunk_phase_one: for z in a .. b, write
    block v at (x, y, z). -/
def colFill (v : MapBlock) (xy : Int × Int) (a b : Int) (d : MapChunkData) :
    MapChunkData :=
  (intRange a b).foldl (fun d z => updBlk d ⟨xy.1, xy.2, z⟩ v) d

/-- The body of the per-column loop of gen_chunk_phase_one (mapgen.rs lines
    60-101). -/
def p1Column (o : NoiseOracle) (pos : V3) (st : P1State) (xy : Int × Int) : P1State :=
  let el := elOf o pos xy
  if pos.z < 0 then
    { st with data :=
        colFill MapBlock.Water xy el CHUNKSIZE (colFill MapBlock.Stone xy 0 el st.data) }
  else
    let d := colFill MapBlock.Ground xy 0 el st.data
    let d := if pos.z = 0 ∧ el ≤ 0 then updBlk d ⟨xy.1, xy.2, 0⟩ MapBlock.Water else d
    if 0 < el ∧ el < CHUNKSIZE then
      if o.treeDensityHigh (pos.x + xy.1) (pos.y + xy.2) then
        if o.treeDraw st.draws then
          { data := d
            tree_spawn_points := st.tree_spawn_points ++ [pos.add ⟨xy.1, xy.2, el⟩]
            draws := st.draws + 1 }
        else
          { data := d, tree_spawn_points := st.tree_spawn_points, draws := st.draws + 1 }
      else { st with data := d }
    else { st with data := d }

/-- mapgen.rs gen_chunk_phase_one (the free function): basic terrain fill
    and deferred tree spawn point collection. -/
def gen_chunk_phase_one (o : NoiseOracle) (pos : V3) : MapChunk :=
  let st := colList.foldl (p1Column o pos)
    { data := fullyAir, tree_spawn_points := [], draws := 0 }
  { data := st.data
    generation_phase := .PhaseOne
    tree_spawn_points := st.tree_spawn_points }

/-- MapgenMap: the generation cache.  The association list is keyed by
    chunk origin; newer entries shadow older ones. -/
structure MapgenMap where
  chunks : List (V3 × MapChunk)

def emptyMapgen : MapgenMap := ⟨[]⟩

def chunksGet (m : MapgenMap) (p : V3) : Option MapChunk :=
  (m.chunks.find? (fun e => e.1 == p)).map (fun e => e.2)

def chunksSet (m : MapgenMap) (p : V3) (c : MapChunk) : MapgenMap :=
  ⟨(p, c) :: m.chunks⟩

/-- MapgenMap::gen_chunk_phase_one: insert the generated chunk only if the
    coordinate is vacant. -/
def genChunkPhaseOneM (o : NoiseOracle) (m : MapgenMap) (pos : V3) : MapgenMap :=
  match chunksGet m pos with
  | some _ => m
  | none => chunksSet m pos (gen_chunk_phase_one o pos)

/-- Modelled from the spec: btchn of map.rs (not among the provided
    sources) maps a world position to the origin corner of the chunk owning
    it.  The spec defines a chunk coordinate as the origin corner, a
    multiple of CHUNKSIZE on every axis, and the owning chunk of a raw
    position as per-axis division by CHUNKSIZE; for the origin corner of
    the chunk containing the position this is flooring division. -/
def btchn (p : V3) : V3 :=
  ⟨p.x.ediv CHUNKSIZE * CHUNKSIZE, p.y.ediv CHUNKSIZE * CHUNKSIZE,
   p.z.ediv CHUNKSIZE * CHUNKSIZE⟩

/-- Modelled from the spec: btpic of map.rs (not among the provided
    sources) maps a world position to its position inside the owning chunk,
    the per-axis remainder of the division above. -/
def btpic (p : V3) : V3 :=
  ⟨p.x.emod CHUNKSIZE, p.y.emod CHUNKSIZE, p.z.emod CHUNKSIZE⟩

/-- MapgenMap::get_blk_p1_mut followed by the write of
    spawn_schematic_mapgen: look up the owning chunk (no generation on
    demand; an absent chunk is the unwrap panic, modelled as none) and
    write the block. -/
def mapSetBlk (m : MapgenMap) (pos : V3) (v : MapBlock) : Option MapgenMap :=
  match chunksGet m (btchn pos) with
  | none => none
  | some c =>
    match set_blk c.data (btpic pos) v with
    | none => none
    | some d => some (chunksSet m (btchn pos) { c with data := d })

/-- mapgen.rs spawn_schematic_mapgen: write every (anchor + offset, block)
    pair of the schematic in order. -/
def spawn_schematic_mapgen (m : MapgenMap) (pos : V3) (items : List (V3 × MapBlock)) :
    Option MapgenMap :=
  items.foldl (fun om it => om.bind (fun m => mapSetBlk m (pos.add it.1) it.2)) (some m)

/-- mapgen.rs tree_schematic: the item list in push order (leaf canopy
    first, trunk last). -/
def tree_schematic_items : List (V3 × MapBlock) :=
  ((intRangeIncl (-1) 1).flatMap fun x =>
    (intRangeIncl (-1) 1).flatMap fun y =>
      [(⟨x, y, 3⟩, MapBlock.Leaves), (⟨x, y, 4⟩, MapBlock.Leaves),
       (⟨x, y, 5⟩, MapBlock.Leaves)])
  ++ (intRange 0 4).map (fun z => (⟨0, 0, z⟩, MapBlock.Tree))

def spawn_tree_mapgen (m : MapgenMap) (pos : V3) : Option MapgenMap :=
  spawn_schematic_mapgen m pos tree_schematic_items

/-- MapgenMap::gen_chunk_phase_two: advance the chunk to PhaseTwo exactly
    once, draining its deferred spawn points and stamping a tree at each.
    The unwrap of the chunk lookup is modelled as none. -/
def gen_chunk_phase_two (m : MapgenMap) (pos : V3) : Option MapgenMap :=
  match chunksGet m pos with
  | none => none
  | some c =>
    if (GenerationPhase.PhaseTwo).idx ≤ c.generation_phase.idx then some m
    else
      let pts := c.tree_spawn_points
      let m1 := chunksSet m pos
        { c with generation_phase := .PhaseTwo, tree_spawn_points := [] }
      pts.foldl (fun om p => om.bind (fun mm => spawn_tree_mapgen mm p)) (some m1)

/-- The chunk origins of the inclusive chunk-coordinate box, iterated in
    the loop order of gen_chunks_in_area (x outer, then y, then z). -/
def areaChunks (cmin cmax : V3) : List V3 :=
  (intRangeIncl cmin.x cmax.x).flatMap fun x =>
    (intRangeIncl cmin.y cmax.y).flatMap fun y =>
      (intRangeIncl cmin.z cmax.z).map fun z =>
        V3.mk (x * CHUNKSIZE) (y * CHUNKSIZE) (z * CHUNKSIZE)

/-- Whether the cached chunk at p is marked Done. -/
def doneAt (m : MapgenMap) (p : V3) : Bool :=
  match chunksGet m p with
  | some c => c.generation_phase == GenerationPhase.Done
  | none => false

/-- The delivery loop at the end of gen_chunks_in_area: for each chunk of
    the requested range, mark it Done and record the callback invocation,
    unless it is already Done. -/
def deliverChunks (coords : List V3)
    (acc : Option (MapgenMap × List (V3 × MapChunkData))) :
    Option (MapgenMap × List (V3 × MapChunkData)) :=
  coords.foldl
    (fun acc p =>
      match acc with
      | none => none
      | some (m, out) =>
        match chunksGet m p with
        | none => none
        | some c =>
          if c.generation_phase == GenerationPhase.Done then some (m, out)
          else
            some (chunksSet m p { c with generation_phase := .Done },
              out ++ [(p, c.data)]))
    acc

/-- The truncating division of a raw request corner into chunk-grid
    coordinates (the Rust pos.map(v / CHUNKSIZE)). -/
def toChunkCoord (p : V3) : V3 :=
  ⟨p.x.tdiv CHUNKSIZE, p.y.tdiv CHUNKSIZE, p.z.tdiv CHUNKSIZE⟩

/-- mapgen.rs gen_chunks_in_area: the early Done-scan, the phase-one pass
    over the range padded by 2, the phase-two pass over the range padded by
    1, and the delivery loop over the requested range.  The callback is
    modelled by returning the list of invocations. -/
def gen_chunks_in_area (o : NoiseOracle) (m : MapgenMap) (pos_min pos_max : V3) :
    Option (MapgenMap × List (V3 × MapChunkData)) :=
  let cmin := toChunkCoord pos_min
  let cmax := toChunkCoord pos_max
  let sth_to_generate := (areaChunks cmin cmax).any (fun p => !(doneAt m p))
  if !sth_to_generate then some (m, [])
  else
    let m1 := (areaChunks ⟨cmin.x - 2, cmin.y - 2, cmin.z - 2⟩
        ⟨cmax.x + 2, cmax.y + 2, cmax.z + 2⟩).foldl (genChunkPhaseOneM o) m
    let r2 := (areaChunks ⟨cmin.x - 1, cmin.y - 1, cmin.z - 1⟩
        ⟨cmax.x + 1, cmax.y + 1, cmax.z + 1⟩).foldl
      (fun om p => om.bind (fun mm => gen_chunk_phase_two mm p)) (some m1)
    match r2 with
    | none => none
    | some m2 => deliverChunks (areaChunks cmin cmax) (some (m2, []))

/-- A sequence of area requests against one MapgenMap instance,
    accumulating all callback invocations. -/
def runSeq (o : NoiseOracle) (m : MapgenMap) :
    List (V3 × V3) → Option (MapgenMap × List (V3 × MapChunkData))
  | [] => some (m, [])
  | c :: rest =>
    match gen_chunks_in_area o m c.1 c.2 with
    | none => none
    | some (m1, out) =>
      match runSeq o m1 rest with
      | none => none
      | some (m2, outs) => some (m2, out ++ outs)

/-- Direct access to the block array by linear index (with its bounds
    check), used to express what cell the index formula of get_blk
    reaches. -/
def cellAtLin (c : MapChunkData) (n : Nat) : Option MapBlock :=
  if h : n < CHUNKVOL then some (c ⟨n, h⟩) else none

/-- Read one cell of one cached chunk out of a run result. -/
def finalCell (r : Option (MapgenMap × List (V3 × MapChunkData)))
    (chunkPos localPos : V3) : Option MapBlock :=
  match r with
  | none => none
  | some (m, _) =>
    match chunksGet m chunkPos with
    | none => none
    | some c => get_blk c.data localPos

/-!
## Order dependence of chunk generation (claim C1)

A concrete noise oracle under which two adjacent chunks A = (0,0,0) and
B = (32,0,0) each receive one tree spawn point: A in column (31,5) at
elevation 5, B in column (32,5) at elevation 7.  The canopy of the tree at
(31,5,5) covers the cells (32,5,8..10) of chunk B, and the trunk of the
tree at (32,5,7) covers the cells (32,5,7..10), with different blocks, so
the final content of cell (32,5,8) depends on which chunk runs phase two
first.
-/

def elevC1 : Int → Int → Int := fun x y =>
  if y == 5 then (if x == 31 then 5 else if x == 32 then 7 else 0) else 0

def densC1 : Int → Int → Bool := fun x y =>
  y == 5 && (x == 31 || x == 32)

def oC1 : NoiseOracle :=
  { elev := elevC1, treeDensityHigh := densC1, treeDraw := fun _ => true }

/-- The two adjacent chunks A and B, both generated to phase one (the
    state in which gen_chunks_in_area leaves them before the phase-two
    loop). -/
def mC1 : MapgenMap :=
  genChunkPhaseOneM oC1 (genChunkPhaseOneM oC1 emptyMapgen ⟨0, 0, 0⟩) ⟨32, 0, 0⟩

/-- Run gen_chunk_phase_two on a list of chunk positions in order,
    mirroring the phase-two loop of gen_chunks_in_area. -/
def p2Seq (m : MapgenMap) (ps : List V3) : Option MapgenMap :=
  ps.foldl (fun om p => om.bind (fun mm => gen_chunk_phase_two mm p)) (some m)

/-- Read one cell of one cached chunk out of an optional map state. -/
def mapCell (r : Option MapgenMap) (chunkPos localPos : V3) : Option MapBlock :=
  match r with
  | none => none
  | some m =>
    match chunksGet m chunkPos with
    | none => none
    | some c => get_blk c.data localPos

/-- Area request for the single chunk at chunk coordinate (0,0,1). -/
def reqA : V3 × V3 := (⟨0, 0, 32⟩, ⟨0, 0, 32⟩)

/-- Area request for the single, adjacent chunk at chunk coordinate (1,0,1). -/
def reqB : V3 × V3 := (⟨32, 0, 32⟩, ⟨32, 0, 32⟩)

/-- In-chunk bounds of a local position. -/
def inChunk (p : V3) : Prop :=
  0 ≤ p.x ∧ p.x < CHUNKSIZE ∧ 0 ≤ p.y ∧ p.y < CHUNKSIZE ∧ 0 ≤ p.z ∧ p.z < CHUNKSIZE

/-- The oracle of the worked example with all noise suppressed. -/
def oFlat : NoiseOracle :=
  { elev := fun _ _ => 0, treeDensityHigh := fun _ _ => false, treeDraw := fun _ => false }

/-- An oracle giving a single tree spawn point near the chunk corner:
    column (31, 31) has elevation 5 and passes the forest density test. -/
def oC4 : NoiseOracle :=
  { elev := fun x y => if x = 31 ∧ y = 31 then 5 else 0
    treeDensityHigh := fun x y => decide (x = 31 ∧ y = 31)
    treeDraw := fun _ => true }

/-- A cache holding only the phase-one chunk at the origin. -/
def mC4 : MapgenMap := genChunkPhaseOneM oC4 emptyMapgen ⟨0, 0, 0⟩

/-- The all-air phase-one-stage chunk record used by witnesses. -/
def airChunk : MapChunk :=
  { data := fullyAir, generation_phase := .PhaseOne, tree_spawn_points := [] }

/-- A one-chunk cache used by witnesses. -/
def mOne : MapgenMap := chunksSet emptyMapgen ⟨0, 0, 0⟩ airChunk

/-- The delivery bookkeeping property of a run result: every chunk
    coordinate is delivered at most once, and every delivered coordinate is
    marked Done in the final cache.  A run that panicked delivered nothing
    of interest. -/
def delivProps : Option (MapgenMap × List (V3 × MapChunkData)) → Prop
  | none => True
  | some (m, out) =>
    (out.map Prod.fst).Nodup ∧ ∀ p ∈ out.map Prod.fst, doneAt m p = true

/-- A chunk record already marked Done, used by witnesses. -/
def doneChunk : MapChunk :=
  { data := fullyAir, generation_phase := .Done, tree_spawn_points := [] }

/-!
## Theorems
-/

/-- C3 counterexample: the claim says the streams are derived from both the
    seed and the chunk coordinate, the stochastic placement stream in
    particular; but for seed 42 the chunks at the two distinct coordinates
    (0,0,0) and (32,0,0) receive exactly the same five streams, the tree
    placement Pcg32 included, because the seeding section of
    gen_chunk_phase_one never reads the position. -/
theorem C3_streams_ignore_position_counterexample :
    phaseOneStreams 42 (0, 0, 0) = phaseOneStreams 42 (32, 0, 0) ∧
    ((0 : Int), (0 : Int), (0 : Int)) ≠ ((32 : Int), (0 : Int), (0 : Int)) :=
  ⟨rfl, by decide⟩

/-- C3 amended: all five pseudo-random streams of phase one, the dedicated
    stochastic placement stream included, are derived from the world seed
    alone and are therefore identical for every chunk; the chunk coordinate
    only enters through the world-space sampling points of the noise
    fields. -/
theorem C3_streams_from_seed_only (seed : Nat) (p q : Int × Int × Int) :
    phaseOneStreams seed p = phaseOneStreams seed q := rfl

/-- Every block type decodes back from its own code. -/
theorem decode_encode (v : MapBlock) :
    number_to_mapblock (mapblock_to_number v) = some v := by
  cases v <;> rfl

/-- Reading back an encoded block list yields the original list. -/
theorem decodeBlocks_encode (l : List MapBlock) :
    decodeBlocks l.length (l.map mapblock_to_number) = .ok l := by
  induction l with
  | nil => rfl
  | cons b t ih =>
    simp only [List.map_cons, List.length_cons, decodeBlocks, decode_encode, ih, Except.map]

/-- Codes ten and above are rejected by the codec. -/
theorem number_to_mapblock_ten_plus (n : Nat) : number_to_mapblock (n + 10) = none := rfl

/-- Any code outside the range of the ten block types is rejected. -/
theorem number_to_mapblock_big {b : Nat} (h : 9 < b) : number_to_mapblock b = none := by
  obtain ⟨n, rfl⟩ : ∃ n, b = n + 10 := ⟨b - 10, by omega⟩
  exact number_to_mapblock_ten_plus n

/-- Decoding a run of zero bytes yields air blocks, ignoring trailing bytes. -/
theorem decodeBlocks_replicate_zero (n : Nat) (rest : List Nat) :
    decodeBlocks n (List.replicate n 0 ++ rest) = .ok (List.replicate n MapBlock.Air) := by
  induction n with
  | zero => rfl
  | succ m ih =>
    simp only [List.replicate_succ, List.cons_append, decodeBlocks, List.append_eq, ih,
      Except.map]
    rfl

theorem getD_replicate_self (n i : Nat) (a : MapBlock) :
    (List.replicate n a).getD i a = a := by
  induction n generalizing i with
  | zero => cases i <;> rfl
  | succ m ih =>
    cases i with
    | zero => rfl
    | succ j => simpa [List.replicate_succ, List.getD] using ih j

/-- A bad byte anywhere among the first n positions of the buffer makes the
    block decode loop fail with the invalid-block error. -/
theorem decodeBlocks_invalid (n : Nat) (buffer : List Nat) (i : Nat)
    (hin : i < n) (hlen : i < buffer.length) (hbad : 9 < buffer.getD i 0) :
    decodeBlocks n buffer = .error "invalid block number" := by
  induction n generalizing buffer i with
  | zero => omega
  | succ m ih =>
    cases buffer with
    | nil => simp at hlen
    | cons b rest =>
      cases i with
      | zero =>
        have : number_to_mapblock b = none := number_to_mapblock_big (by simpa using hbad)
        simp only [decodeBlocks, this]
      | succ j =>
        simp only [decodeBlocks]
        cases hb : number_to_mapblock b with
        | none => rfl
        | some mb =>
          have hd : decodeBlocks m rest = .error "invalid block number" := by
            refine ih rest j (by omega) (by simp at hlen; omega) (by simpa using hbad)
          simp only [hb, hd, Except.map]

/-- C6: for every block type v, number_to_mapblock (mapblock_to_number v)
    returns v; and for every full chunk, deserializing the serialized blob
    returns the original chunk, for every compressor/decompressor pair that
    round-trips (the flate2 gzip pair used by the code is external and is
    abstracted by that hypothesis). -/
theorem C6_codec_and_chunk_roundtrip :
    (∀ v, number_to_mapblock (mapblock_to_number v) = some v) ∧
    ∀ (compress : List Nat → List Nat) (decompress : List Nat → Except String (List Nat)),
      (∀ bs, decompress (compress bs) = .ok bs) →
      ∀ c : MapChunkData,
        deserialize_mapchunk_data decompress (serialize_mapchunk_data compress c) = .ok c := by
  refine ⟨decode_encode, ?_⟩
  intro compress decompress h c
  have h1 : chunkBytes c = ((List.finRange CHUNKVOL).map c).map mapblock_to_number := by
    simp only [chunkBytes, List.map_map]
    rfl
  have h2 : ((List.finRange CHUNKVOL).map c).length = CHUNKVOL := by
    simp
  have h3 : decodeBlocks CHUNKVOL (chunkBytes c) = .ok ((List.finRange CHUNKVOL).map c) := by
    have h5 := decodeBlocks_encode ((List.finRange CHUNKVOL).map c)
    rw [h2] at h5
    rw [h1]
    exact h5
  have step1 : deserialize_mapchunk_data decompress (serialize_mapchunk_data compress c)
      = decodeStage (decompress (compress (chunkBytes c))) := rfl
  rw [step1, h]
  show (decodeBlocks CHUNKVOL (chunkBytes c)).map
      (fun l => fun i => l.getD i.val MapBlock.Air) = .ok c
  rw [h3]
  show Except.ok (fun i => ((List.finRange CHUNKVOL).map c).getD i.val MapBlock.Air) = .ok c
  refine congrArg Except.ok ?_
  funext i
  have h4 : i.val < ((List.finRange CHUNKVOL).map c).length := by
    rw [h2]
    exact i.isLt
  rw [List.getD_eq_getElem _ _ h4]
  simp [List.getElem_finRange, Fin.cast]

/-- C6 witness: the round-trip hypothesis discharged with the identity
    compressor on the fully-air chunk. -/
theorem C6_codec_and_chunk_roundtrip_witness :
    deserialize_mapchunk_data (fun l => .ok l)
      (serialize_mapchunk_data (fun l => l) fullyAir) = .ok fullyAir :=
  C6_codec_and_chunk_roundtrip.2 (fun l => l) (fun l => .ok l) (fun _ => rfl) fullyAir

/-- C7 counterexample: the claim quantifies over every blob whose
    decompressed stream contains an out-of-range byte, but a stream holding
    CHUNKSIZE^3 valid bytes followed by the invalid byte 10 decodes
    successfully, because the read loop never looks past the first
    CHUNKSIZE^3 bytes.  (The decompressor parameter is instantiated with the
    identity, i.e. the blob is one whose decompression yields this stream.) -/
theorem C7_trailing_invalid_byte_accepted :
    number_to_mapblock 10 = none ∧
    (List.replicate CHUNKVOL 0 ++ [10]).contains 10 = true ∧
    deserialize_mapchunk_data (fun l => .ok l) (0 :: (List.replicate CHUNKVOL 0 ++ [10]))
      = .ok fullyAir := by
  refine ⟨rfl, ?_, ?_⟩
  · simp [List.contains, List.elem_eq_mem]
  · have step1 : deserialize_mapchunk_data (fun l => .ok l)
        (0 :: (List.replicate CHUNKVOL 0 ++ [10]))
        = decodeStage (.ok (List.replicate CHUNKVOL 0 ++ [10])) := rfl
    rw [step1, decodeStage, decodeBlocks_replicate_zero, Except.map]
    refine congrArg Except.ok ?_
    funext i
    exact getD_replicate_self CHUNKVOL i.val MapBlock.Air

/-- C7 amended: every blob whose first byte is nonzero fails with the
    version error; and every blob whose decompressed stream has an
    out-of-range byte among the first CHUNKSIZE^3 positions (the only ones
    the read loop consumes) fails with the invalid-block error. -/
theorem C7_decode_errors :
    (∀ (decompress : List Nat → Except String (List Nat)) (v : Nat) (rest : List Nat),
      v ≠ 0 →
      deserialize_mapchunk_data decompress (v :: rest)
        = .error ("Unsupported map chunk version " ++ toString v)) ∧
    (∀ (decompress : List Nat → Except String (List Nat)) (rest buffer : List Nat)
      (i : Nat),
      decompress rest = .ok buffer →
      i < CHUNKVOL → i < buffer.length → 9 < buffer.getD i 0 →
      deserialize_mapchunk_data decompress (0 :: rest) = .error "invalid block number") := by
  constructor
  · intro decompress v rest h
    simp [deserialize_mapchunk_data, h]
  · intro decompress rest buffer i hdec hin hlen hbad
    have step1 : deserialize_mapchunk_data decompress (0 :: rest)
        = decodeStage (decompress rest) := rfl
    rw [step1, hdec, decodeStage, decodeBlocks_invalid CHUNKVOL buffer i hin hlen hbad]
    rfl

/-- C7 amended witness: version byte 7 is rejected with the version error,
    and a buffer whose first byte is 10 is rejected with the invalid-block
    error. -/
theorem C7_decode_errors_witness :
    deserialize_mapchunk_data (fun l => .ok l) [7]
      = .error ("Unsupported map chunk version " ++ toString (7 : Nat)) ∧
    deserialize_mapchunk_data (fun l => .ok l) [0, 10]
      = .error "invalid block number" :=
  ⟨C7_decode_errors.1 (fun l => .ok l) 7 [] (by decide),
   C7_decode_errors.2 (fun l => .ok l) [10] [10] 0 rfl (by decide) (by decide) (by decide)⟩

/-- C2 counterexample: opening an existing database with a mismatched
    application id does make expect_user_ver fail, but the system does not
    refuse to start: storage_backend_from_config swallows the error and
    starts with the null backend, so startup proceeds with the incompatible
    file left in place. -/
theorem C2_mismatch_not_fatal_counterexample :
    expect_user_ver foreignDb
      = .error ("expected app id " ++ toString MEHLON_SQLITE_APP_ID ++ " but was "
        ++ toString (0 : Int)) ∧
    storage_backend_from_config { map_storage_path := some (some foreignDb) }
      = Backend.null := by
  constructor
  · rfl
  · rfl

/-- C2 amended: an existing database must match both expected constants
    exactly, and any mismatch makes expect_user_ver (and hence opening the
    sqlite backend) fail; but that failure is not fatal to startup: the
    configured-path run degrades to the null backend.  An exact match opens
    the sqlite backend normally. -/
theorem C2_identity_check :
    (∀ db : DbHeader,
      db.application_id ≠ MEHLON_SQLITE_APP_ID ∨ db.user_version ≠ USER_VERSION →
      expect_user_ver db ≠ .ok () ∧
      storage_backend_from_config { map_storage_path := some (some db) } = Backend.null) ∧
    (∀ db : DbHeader,
      db.application_id = MEHLON_SQLITE_APP_ID → db.user_version = USER_VERSION →
      expect_user_ver db = .ok () ∧
      storage_backend_from_config { map_storage_path := some (some db) }
        = Backend.sqlite db) := by
  constructor
  · intro db h
    have hver : expect_user_ver db ≠ .ok () := by
      unfold expect_user_ver
      rcases h with h | h
      · simp [h]
      · by_cases ha : db.application_id = MEHLON_SQLITE_APP_ID <;> simp [ha, h]
    refine ⟨hver, ?_⟩
    cases hv : expect_user_ver db with
    | error e =>
      simp [storage_backend_from_config, sqlite_backend_from_config, open_or_create,
        from_conn, hv]
    | ok u => exact absurd (by rw [hv]) hver
  · intro db h1 h2
    have hver : expect_user_ver db = .ok () := by
      unfold expect_user_ver
      simp [h1, h2]
    refine ⟨hver, ?_⟩
    simp [storage_backend_from_config, sqlite_backend_from_config, open_or_create,
      from_conn, hver]

/-- C2 amended witness: the foreign database is rejected by the header
    check yet startup proceeds on the null backend, and the database
    initialized by init_db opens normally. -/
theorem C2_identity_check_witness :
    (expect_user_ver foreignDb ≠ .ok () ∧
      storage_backend_from_config { map_storage_path := some (some foreignDb) }
        = Backend.null) ∧
    (expect_user_ver init_db = .ok () ∧
      storage_backend_from_config { map_storage_path := some (some init_db) }
        = Backend.sqlite init_db) :=
  ⟨C2_identity_check.1 foreignDb (Or.inl (by decide)),
   C2_identity_check.2 init_db rfl rfl⟩

theorem txnLoads_eq_foldl (evs : List DbEvent) : txnLoads evs = evs.foldl loadStep (0, 0) := by
  unfold txnLoads
  congr 1

theorem goodTxn_step (a : StorageAction) (s : TxnState) (cur maxv : Nat)
    (hg : GoodTxn s cur) (hm : maxv ≤ 51) :
    GoodTxn (backendStep s a).1 ((backendStep s a).2.foldl loadStep (cur, maxv)).1 ∧
    ((backendStep s a).2.foldl loadStep (cur, maxv)).2 ≤ 51 := by
  obtain ⟨h1, h2, h3⟩ := hg
  cases a with
  | store =>
    cases ha : s.autocommit with
    | true =>
      have hcur : cur = 0 := h1 ha
      by_cases hc : s.ctr = 0 <;>
        simp_all [backendStep, store_chunk, loadStep, GoodTxn, WRITES_PER_TRANSACTION] <;>
        omega
    | false =>
      have hcur := h2 ha
      by_cases hc : s.ctr = 0 <;>
        simp_all [backendStep, store_chunk, loadStep, GoodTxn, WRITES_PER_TRANSACTION] <;>
        omega
  | tickAction =>
    cases ha : s.autocommit with
    | true =>
      have hcur : cur = 0 := h1 ha
      simp_all [backendStep, tick, GoodTxn]
    | false =>
      simp_all [backendStep, tick, loadStep, GoodTxn, WRITES_PER_TRANSACTION]

theorem goodTxn_run (acts : List StorageAction) (s : TxnState) (cur maxv : Nat)
    (hg : GoodTxn s cur) (hm : maxv ≤ 51) :
    GoodTxn (runBackend s acts).1 ((runBackend s acts).2.foldl loadStep (cur, maxv)).1 ∧
    ((runBackend s acts).2.foldl loadStep (cur, maxv)).2 ≤ 51 := by
  induction acts generalizing s cur maxv with
  | nil => exact ⟨⟨hg.1, hg.2.1, hg.2.2⟩, hm⟩
  | cons a rest ih =>
    have hstep := goodTxn_step a s cur maxv hg hm
    have : runBackend s (a :: rest)
        = ((runBackend (backendStep s a).1 rest).1,
           (backendStep s a).2 ++ (runBackend (backendStep s a).1 rest).2) := by
      simp [runBackend]
    rw [this, List.foldl_append]
    exact ih (backendStep s a).1 _ _ hstep.1 hstep.2

/-- C5 counterexample: from the initial idle state, 51 consecutive
    store_chunk calls execute no COMMIT at all and leave a transaction open
    that already holds 51 INSERTs, contradicting both the at-most-50 bound
    and the commit-on-exhaustion timing: the commit of a full transaction
    only happens at the start of the following store_chunk call. -/
theorem C5_first_transaction_holds_51_writes :
    ((runBackend initTxnState (List.replicate 51 .store)).2.count DbEvent.commitTxn = 0) ∧
    (txnLoads (runBackend initTxnState (List.replicate 51 .store)).2).1 = 51 ∧
    (runBackend initTxnState (List.replicate 51 .store)).1.autocommit = false := by
  decide

/-- C5 amended: over any action sequence from the initial state, an open
    transaction never holds more than 51 writes (the first write plus the 50
    counted by the counter; the commit of a full transaction happens at the
    start of the next store_chunk call); the first store_chunk while idle
    begins a transaction; and tick commits any open transaction and reloads
    the counter. -/
theorem C5_transaction_batching :
    (∀ acts : List StorageAction,
      (txnLoads (runBackend initTxnState acts).2).2 ≤ 51) ∧
    (∀ s : TxnState, s.autocommit = true →
      (store_chunk s).2 = [DbEvent.beginTxn, DbEvent.insertChunk]) ∧
    (∀ s : TxnState, s.autocommit = false →
      tick s = ({ ctr := WRITES_PER_TRANSACTION, autocommit := true }, [DbEvent.commitTxn])) := by
  refine ⟨?_, ?_, ?_⟩
  · intro acts
    rw [txnLoads_eq_foldl]
    exact (goodTxn_run acts initTxnState 0 0
      ⟨fun _ => rfl, by simp [initTxnState], by simp [initTxnState]⟩ (by omega)).2
  · intro s ha
    by_cases hc : s.ctr = 0 <;> simp [store_chunk, hc, ha]
  · intro s ha
    simp [tick, ha]

/-- C5 amended witness: the second and third parts applied to concrete
    states (an idle connection, and an open transaction). -/
theorem C5_transaction_batching_witness :
    (store_chunk { ctr := 7, autocommit := true }).2
      = [DbEvent.beginTxn, DbEvent.insertChunk] ∧
    tick { ctr := 7, autocommit := false }
      = ({ ctr := WRITES_PER_TRANSACTION, autocommit := true }, [DbEvent.commitTxn]) :=
  ⟨C5_transaction_batching.2.1 { ctr := 7, autocommit := true } rfl,
   C5_transaction_batching.2.2 { ctr := 7, autocommit := false } rfl⟩

/-- C1 counterexample: with the oracle above, adjacent phase-one chunks A
    and B are such that generating A stamps a structure block into B (third
    conjunct: after phase two of A alone, cell (0,5,9) of B holds the
    canopy Leaves of A's tree), yet generating (A then B) and (B then A)
    yield different final content for chunk B: cell (0,5,8) of B ends as
    Tree (B's trunk, stamped later) in the first order and as Leaves (A's
    canopy, stamped later) in the second.  The final content of a chunk is
    not independent of the generation order. -/
theorem C1_order_dependence_counterexample :
    mapCell (p2Seq mC1 [⟨0, 0, 0⟩, ⟨32, 0, 0⟩]) ⟨32, 0, 0⟩ ⟨0, 5, 8⟩
      = some MapBlock.Tree ∧
    mapCell (p2Seq mC1 [⟨32, 0, 0⟩, ⟨0, 0, 0⟩]) ⟨32, 0, 0⟩ ⟨0, 5, 8⟩
      = some MapBlock.Leaves ∧
    mapCell (p2Seq mC1 [⟨0, 0, 0⟩]) ⟨32, 0, 0⟩ ⟨0, 5, 9⟩
      = some MapBlock.Leaves := by
  decide!

/-- C1 amended: generation is deterministic for a fixed seed and a fixed
    request sequence: two independent instances given the same requests
    produce identical data (in this purely functional embedding this is
    definitional, which is itself the verification: the model has no hidden
    state).  Each chunk undergoes phase-two stamping at most once: on a
    chunk already at or past PhaseTwo, gen_chunk_phase_two changes nothing.
    Order independence of the final content fails where stamps overlap
    (see the counterexample). -/
theorem C1_fixed_order_determinism :
    (∀ (o : NoiseOracle) (calls₁ calls₂ : List (V3 × V3)), calls₁ = calls₂ →
      runSeq o emptyMapgen calls₁ = runSeq o emptyMapgen calls₂) ∧
    (∀ (m : MapgenMap) (pos : V3) (c : MapChunk), chunksGet m pos = some c →
      c.generation_phase ≠ .PhaseOne → gen_chunk_phase_two m pos = some m) := by
  constructor
  · intro o c1 c2 h
    rw [h]
  · intro m pos c hc hp
    unfold gen_chunk_phase_two
    rw [hc]
    have hidx : (GenerationPhase.PhaseTwo).idx ≤ c.generation_phase.idx := by
      cases hph : c.generation_phase with
      | PhaseOne => exact absurd hph hp
      | PhaseTwo => exact le_refl _
      | Done => exact Nat.le_succ 1
    simp [hidx]

/-- C1 amended witness: the determinism part applied to the counterexample
    oracle and request list, and the single-stamping part applied to a map
    holding one Done chunk. -/
theorem C1_fixed_order_determinism_witness :
    runSeq oC1 emptyMapgen [reqA, reqB] = runSeq oC1 emptyMapgen [reqA, reqB] ∧
    gen_chunk_phase_two
      (chunksSet emptyMapgen ⟨0, 0, 0⟩
        { data := fullyAir, generation_phase := .Done, tree_spawn_points := [] })
      ⟨0, 0, 0⟩
      = some (chunksSet emptyMapgen ⟨0, 0, 0⟩
        { data := fullyAir, generation_phase := .Done, tree_spawn_points := [] }) :=
  ⟨C1_fixed_order_determinism.1 oC1 [reqA, reqB] [reqA, reqB] rfl,
   C1_fixed_order_determinism.2
     (chunksSet emptyMapgen ⟨0, 0, 0⟩
       { data := fullyAir, generation_phase := .Done, tree_spawn_points := [] })
     ⟨0, 0, 0⟩
     { data := fullyAir, generation_phase := .Done, tree_spawn_points := [] }
     rfl (by decide)⟩

/-- C10: get_blk indexes by the linear formula without validating the
    components separately.  (a) For components all in [0, CHUNKSIZE) the
    access is in bounds and returns the cell at the linear index the
    formula computes; (b) the position (0, 0, CHUNKSIZE), whose z component
    is out of range, silently aliases the cell of (0, 1, 0) instead of
    failing; (c) only a linear index outside the array, including any
    negative result, panics (modelled as none). -/
theorem C10_linear_indexing_aliases :
    (∀ (c : MapChunkData) (x y z : Int),
      0 ≤ x → x < CHUNKSIZE → 0 ≤ y → y < CHUNKSIZE → 0 ≤ z → z < CHUNKSIZE →
      get_blk c ⟨x, y, z⟩ = cellAtLin c (linIdx ⟨x, y, z⟩).toNat ∧
      (get_blk c ⟨x, y, z⟩).isSome = true) ∧
    (∀ c : MapChunkData,
      get_blk c ⟨0, 0, CHUNKSIZE⟩ = get_blk c ⟨0, 1, 0⟩ ∧
      (get_blk c ⟨0, 1, 0⟩).isSome = true) ∧
    (∀ (c : MapChunkData) (p : V3),
      linIdx p < 0 ∨ (CHUNKVOL : Int) ≤ linIdx p → get_blk c p = none) := by
  refine ⟨?_, ?_, ?_⟩
  · intro c x y z hx0 hx hy0 hy hz0 hz
    have hb : 0 ≤ linIdx ⟨x, y, z⟩ ∧ (linIdx ⟨x, y, z⟩).toNat < CHUNKVOL := by
      simp only [linIdx, CHUNKSIZE, CHUNKVOL] at *
      omega
    constructor
    · rw [get_blk, cellAtLin, dif_pos hb, dif_pos hb.2]
    · rw [get_blk, dif_pos hb]
      rfl
  · intro c
    exact ⟨rfl, rfl⟩
  · intro c p h
    have hb : ¬(0 ≤ linIdx p ∧ (linIdx p).toNat < CHUNKVOL) := by
      simp only [CHUNKVOL] at *
      omega
    rw [get_blk, dif_neg hb]

/-- C10 witness: the in-range case at (1, 2, 3), the aliasing pair, and the
    panic case at the negative position (-1, 0, 0), all on the fully-air
    chunk. -/
theorem C10_linear_indexing_aliases_witness :
    (get_blk fullyAir ⟨1, 2, 3⟩ = cellAtLin fullyAir (linIdx ⟨1, 2, 3⟩).toNat ∧
      (get_blk fullyAir ⟨1, 2, 3⟩).isSome = true) ∧
    (get_blk fullyAir ⟨0, 0, CHUNKSIZE⟩ = get_blk fullyAir ⟨0, 1, 0⟩ ∧
      (get_blk fullyAir ⟨0, 1, 0⟩).isSome = true) ∧
    get_blk fullyAir ⟨-1, 0, 0⟩ = none :=
  ⟨C10_linear_indexing_aliases.1 fullyAir 1 2 3 (by decide) (by decide) (by decide)
      (by decide) (by decide) (by decide),
   C10_linear_indexing_aliases.2.1 fullyAir,
   C10_linear_indexing_aliases.2.2 fullyAir ⟨-1, 0, 0⟩ (Or.inl (by decide))⟩

theorem mem_intRange {a b z : Int} : z ∈ intRange a b ↔ a ≤ z ∧ z < b := by
  constructor
  · intro hz
    obtain ⟨i, hi, hzi⟩ := List.mem_map.mp hz
    have hi2 := List.mem_range.mp hi
    omega
  · intro h
    refine List.mem_map.mpr ⟨(z - a).toNat, List.mem_range.mpr ?_, ?_⟩ <;> omega

theorem mem_colList {x y : Int} :
    (x, y) ∈ colList ↔ 0 ≤ x ∧ x < CHUNKSIZE ∧ 0 ≤ y ∧ y < CHUNKSIZE := by
  simp only [colList, List.mem_flatMap, List.mem_map, Prod.mk.injEq]
  constructor
  · rintro ⟨a, ha, b, hb, rfl, rfl⟩
    exact ⟨(mem_intRange.mp ha).1, (mem_intRange.mp ha).2,
      (mem_intRange.mp hb).1, (mem_intRange.mp hb).2⟩
  · intro h
    exact ⟨x, mem_intRange.mpr ⟨h.1, h.2.1⟩, y, mem_intRange.mpr ⟨h.2.2.1, h.2.2.2⟩,
      rfl, rfl⟩

theorem inChunk_mk {x y z : Int} (hx : 0 ≤ x ∧ x < CHUNKSIZE)
    (hy : 0 ≤ y ∧ y < CHUNKSIZE) (hz : 0 ≤ z ∧ z < CHUNKSIZE) :
    inChunk ⟨x, y, z⟩ :=
  ⟨hx.1, hx.2, hy.1, hy.2, hz.1, hz.2⟩

theorem zero_in_cs : (0 : Int) ≤ 0 ∧ (0 : Int) < CHUNKSIZE := by decide

theorem linIdx_bounds {p : V3} (hp : inChunk p) :
    0 ≤ linIdx p ∧ (linIdx p).toNat < CHUNKVOL := by
  obtain ⟨px, py, pz⟩ := p
  simp only [inChunk, linIdx, CHUNKSIZE, CHUNKVOL] at *
  omega

theorem linIdx_inj {p q : V3} (hp : inChunk p) (hq : inChunk q)
    (h : linIdx p = linIdx q) : p = q := by
  obtain ⟨px, py, pz⟩ := p
  obtain ⟨qx, qy, qz⟩ := q
  simp only [inChunk, linIdx, CHUNKSIZE, V3.mk.injEq] at *
  omega

/-- Reading through a single in-range write. -/
theorem get_blk_updBlk (c : MapChunkData) (p q : V3) (v : MapBlock)
    (hp : inChunk p) (hq : inChunk q) :
    get_blk (updBlk c p v) q = if q = p then some v else get_blk c q := by
  have hbq := linIdx_bounds hq
  have hcast : ((linIdx q).toNat : Int) = linIdx q := Int.toNat_of_nonneg hbq.1
  by_cases hqp : q = p
  · subst hqp
    rw [get_blk, dif_pos hbq, if_pos rfl]
    simp [updBlk, hcast]
  · rw [get_blk, dif_pos hbq, if_neg hqp, get_blk, dif_pos hbq]
    simp only [updBlk, hcast]
    rw [if_neg]
    intro heq
    exact hqp (linIdx_inj hq hp heq)

/-- The fill height is clamped into [0, CHUNKSIZE]. -/
theorem iMin_le_right (a b : Int) : iMin a b ≤ b := by
  unfold iMin
  split_ifs with h
  · exact h
  · exact le_refl b

theorem elOf_bounds (o : NoiseOracle) (pos : V3) (xy : Int × Int) :
    0 ≤ elOf o pos xy ∧ elOf o pos xy ≤ CHUNKSIZE := by
  unfold elOf iMax
  split_ifs with h
  · exact ⟨h, iMin_le_right _ _⟩
  · exact ⟨le_refl 0, by decide⟩

/-- A fold of in-range writes along one column does not touch cells of
    other columns. -/
theorem get_blk_foldl_updBlk_col (zs : List Int) (v : MapBlock) (xy : Int × Int)
    (d : MapChunkData) (q : V3) (hq : inChunk q)
    (hcol : 0 ≤ xy.1 ∧ xy.1 < CHUNKSIZE ∧ 0 ≤ xy.2 ∧ xy.2 < CHUNKSIZE)
    (hne : ¬(q.x = xy.1 ∧ q.y = xy.2)) :
    (∀ z ∈ zs, 0 ≤ z ∧ z < CHUNKSIZE) →
    get_blk (zs.foldl (fun d z => updBlk d ⟨xy.1, xy.2, z⟩ v) d) q = get_blk d q := by
  induction zs generalizing d with
  | nil =>
    intro _
    rfl
  | cons z t ih =>
    intro hzs
    rw [List.foldl_cons,
      ih (updBlk d ⟨xy.1, xy.2, z⟩ v) (fun w hw => hzs w (List.mem_cons_of_mem z hw))]
    rw [get_blk_updBlk d ⟨xy.1, xy.2, z⟩ q v
      (inChunk_mk ⟨hcol.1, hcol.2.1⟩ ⟨hcol.2.2.1, hcol.2.2.2⟩
        (hzs z (List.mem_cons_self z t))) hq]
    rw [if_neg]
    intro hqe
    rw [hqe] at hne
    exact hne ⟨rfl, rfl⟩

/-- A vertical fill loop does not touch cells of other columns. -/
theorem get_blk_colFill_other (v : MapBlock) (xy : Int × Int) (a b : Int)
    (d : MapChunkData) (q : V3) (hq : inChunk q)
    (hcol : 0 ≤ xy.1 ∧ xy.1 < CHUNKSIZE ∧ 0 ≤ xy.2 ∧ xy.2 < CHUNKSIZE)
    (hz : 0 ≤ a) (hb : b ≤ CHUNKSIZE)
    (hne : ¬(q.x = xy.1 ∧ q.y = xy.2)) :
    get_blk (colFill v xy a b d) q = get_blk d q := by
  unfold colFill
  refine get_blk_foldl_updBlk_col (intRange a b) v xy d q hq hcol hne ?_
  intro z hzm
  have := mem_intRange.mp hzm
  omega

/-- The data field produced by one column step, with the tree branch
    (which never writes blocks) reduced away. -/
theorem p1Column_data (o : NoiseOracle) (pos : V3) (st : P1State) (xy : Int × Int) :
    (p1Column o pos st xy).data =
      if pos.z < 0 then
        colFill MapBlock.Water xy (elOf o pos xy) CHUNKSIZE
          (colFill MapBlock.Stone xy 0 (elOf o pos xy) st.data)
      else if pos.z = 0 ∧ elOf o pos xy ≤ 0 then
        updBlk (colFill MapBlock.Ground xy 0 (elOf o pos xy) st.data)
          ⟨xy.1, xy.2, 0⟩ MapBlock.Water
      else colFill MapBlock.Ground xy 0 (elOf o pos xy) st.data := by
  simp only [p1Column]
  split_ifs <;> rfl

/-- Processing a different column leaves a cell unchanged. -/
theorem p1Column_other (o : NoiseOracle) (pos : V3) (st : P1State) (xy : Int × Int)
    (q : V3) (hq : inChunk q)
    (hxy : 0 ≤ xy.1 ∧ xy.1 < CHUNKSIZE ∧ 0 ≤ xy.2 ∧ xy.2 < CHUNKSIZE)
    (hne : ¬(q.x = xy.1 ∧ q.y = xy.2)) :
    get_blk (p1Column o pos st xy).data q = get_blk st.data q := by
  obtain ⟨he0, he1⟩ := elOf_bounds o pos xy
  rw [p1Column_data]
  split_ifs with h1 h2
  · rw [get_blk_colFill_other _ _ _ _ _ _ hq hxy he0 le_rfl hne,
      get_blk_colFill_other _ _ _ _ _ _ hq hxy le_rfl he1 hne]
  · rw [get_blk_updBlk _ ⟨xy.1, xy.2, 0⟩ q _
      (inChunk_mk ⟨hxy.1, hxy.2.1⟩ ⟨hxy.2.2.1, hxy.2.2.2⟩ zero_in_cs) hq]
    rw [if_neg fun hqe => by rw [hqe] at hne; exact hne ⟨rfl, rfl⟩]
    exact get_blk_colFill_other _ _ _ _ _ _ hq hxy le_rfl he1 hne
  · exact get_blk_colFill_other _ _ _ _ _ _ hq hxy le_rfl he1 hne

/-- Processing a column of nonpositive elevation in the floor chunk puts
    Water at its floor cell. -/
theorem p1Column_self_water (o : NoiseOracle) (pos : V3) (st : P1State)
    (x y : Int) (hz : pos.z = 0)
    (hx : 0 ≤ x ∧ x < CHUNKSIZE ∧ 0 ≤ y ∧ y < CHUNKSIZE)
    (he : o.elev (pos.x + x) (pos.y + y) ≤ 0) :
    get_blk (p1Column o pos st (x, y)).data ⟨x, y, 0⟩ = some MapBlock.Water := by
  have hel : elOf o pos (x, y) = 0 := by
    show iMax (iMin (o.elev (pos.x + x) (pos.y + y) - pos.z) CHUNKSIZE) 0 = 0
    rw [hz, sub_zero]
    rw [show iMin (o.elev (pos.x + x) (pos.y + y)) CHUNKSIZE
      = o.elev (pos.x + x) (pos.y + y) from if_pos (le_trans he (by decide))]
    unfold iMax
    split_ifs with h
    · omega
    · rfl

  rw [p1Column_data, if_neg (by omega), if_pos ⟨hz, le_of_eq hel⟩]
  rw [get_blk_updBlk _ ⟨(x, y).1, (x, y).2, 0⟩ ⟨x, y, 0⟩ _
    (inChunk_mk ⟨hx.1, hx.2.1⟩ ⟨hx.2.2.1, hx.2.2.2⟩ zero_in_cs)
    (inChunk_mk ⟨hx.1, hx.2.1⟩ ⟨hx.2.2.1, hx.2.2.2⟩ zero_in_cs)]
  rw [if_pos rfl]

/-- Once the floor cell of a nonpositive-elevation column holds Water, the
    remaining columns keep it. -/
theorem p1_fold_water_keep (o : NoiseOracle) (pos : V3) (x y : Int)
    (cols : List (Int × Int)) (st : P1State)
    (hz : pos.z = 0)
    (hx : 0 ≤ x ∧ x < CHUNKSIZE ∧ 0 ≤ y ∧ y < CHUNKSIZE)
    (he : o.elev (pos.x + x) (pos.y + y) ≤ 0)
    (hcols : ∀ xy ∈ cols, 0 ≤ xy.1 ∧ xy.1 < CHUNKSIZE ∧ 0 ≤ xy.2 ∧ xy.2 < CHUNKSIZE)
    (hst : get_blk st.data ⟨x, y, 0⟩ = some MapBlock.Water) :
    get_blk ((cols.foldl (p1Column o pos) st)).data ⟨x, y, 0⟩ = some MapBlock.Water := by
  induction cols generalizing st with
  | nil => exact hst
  | cons xy t ih =>
    rw [List.foldl_cons]
    refine ih _ (fun w hw => hcols w (List.mem_cons_of_mem xy hw)) ?_
    by_cases hxyq : x = xy.1 ∧ y = xy.2
    · obtain ⟨a, b⟩ := xy
      obtain ⟨rfl, rfl⟩ : x = a ∧ y = b := ⟨hxyq.1, hxyq.2⟩
      exact p1Column_self_water o pos st x y hz hx he
    · rw [p1Column_other o pos st xy ⟨x, y, 0⟩
        (inChunk_mk ⟨hx.1, hx.2.1⟩ ⟨hx.2.2.1, hx.2.2.2⟩ zero_in_cs)
        (hcols xy (List.mem_cons_self xy t)) hxyq]
      exact hst

/-- If the column is still to be processed, its floor cell ends as Water. -/
theorem p1_fold_water (o : NoiseOracle) (pos : V3) (x y : Int)
    (cols : List (Int × Int)) (st : P1State)
    (hz : pos.z = 0)
    (hx : 0 ≤ x ∧ x < CHUNKSIZE ∧ 0 ≤ y ∧ y < CHUNKSIZE)
    (he : o.elev (pos.x + x) (pos.y + y) ≤ 0)
    (hcols : ∀ xy ∈ cols, 0 ≤ xy.1 ∧ xy.1 < CHUNKSIZE ∧ 0 ≤ xy.2 ∧ xy.2 < CHUNKSIZE)
    (hmem : (x, y) ∈ cols) :
    get_blk ((cols.foldl (p1Column o pos) st)).data ⟨x, y, 0⟩ = some MapBlock.Water := by
  induction cols generalizing st with
  | nil => cases hmem
  | cons xy t ih =>
    rw [List.foldl_cons]
    rcases List.mem_cons.mp hmem with heq | hmem2
    · refine p1_fold_water_keep o pos x y t _ hz hx he
        (fun w hw => hcols w (List.mem_cons_of_mem xy hw)) ?_
      rw [← heq]
      exact p1Column_self_water o pos st x y hz hx he
    · exact ih _ (fun w hw => hcols w (List.mem_cons_of_mem xy hw)) hmem2

/-- C9: in phase-one generation of a chunk at the world floor (chunk base
    z = 0), every column whose elevation (the integer the noise sum is cast
    to, abstracted as the oracle) resolves to zero or negative gets Water
    at its floor-level cell, for every column in range and every oracle
    (hence every seed). -/
theorem C9_floor_column_water (o : NoiseOracle) (pos : V3) (x y : Int)
    (hz : pos.z = 0) (hx0 : 0 ≤ x) (hx : x < CHUNKSIZE) (hy0 : 0 ≤ y)
    (hy : y < CHUNKSIZE)
    (he : o.elev (pos.x + x) (pos.y + y) ≤ 0) :
    get_blk (gen_chunk_phase_one o pos).data ⟨x, y, 0⟩ = some MapBlock.Water := by
  simp only [gen_chunk_phase_one]
  exact p1_fold_water o pos x y colList _ hz ⟨hx0, hx, hy0, hy⟩ he
    (fun w hw => by
      obtain ⟨a, b⟩ := w
      exact mem_colList.mp hw)
    (mem_colList.mpr ⟨hx0, hx, hy0, hy⟩)

/-- C9 witness: under the flat oracle every column of the origin chunk has
    elevation 0, and the floor cell of column (0, 0) is Water. -/
theorem C9_floor_column_water_witness :
    get_blk (gen_chunk_phase_one oFlat ⟨0, 0, 0⟩).data ⟨0, 0, 0⟩ = some MapBlock.Water :=
  C9_floor_column_water oFlat ⟨0, 0, 0⟩ 0 0 rfl (by decide) (by decide) (by decide)
    (by decide) (by decide)

/-- The association list lookup after an insert. -/
theorem chunksGet_chunksSet (m : MapgenMap) (p : V3) (c : MapChunk) (q : V3) :
    chunksGet (chunksSet m p c) q = if q = p then some c else chunksGet m q := by
  unfold chunksGet chunksSet
  by_cases h : q = p
  · subst h
    rw [List.find?_cons_of_pos _ (by simp), if_pos rfl]
    rfl
  · rw [List.find?_cons_of_neg _ (by simp [beq_iff_eq]; exact fun hh => h hh.symm),
      if_neg h]

/-- In-chunk positions produced by btpic. -/
theorem btpic_inChunk (p : V3) : inChunk (btpic p) := by
  refine ⟨Int.emod_nonneg _ (by decide), Int.emod_lt_of_pos _ (by decide),
    Int.emod_nonneg _ (by decide), Int.emod_lt_of_pos _ (by decide),
    Int.emod_nonneg _ (by decide), Int.emod_lt_of_pos _ (by decide)⟩

/-- set_blk never panics on a btpic position. -/
theorem set_blk_some (c : MapChunkData) (q : V3) (v : MapBlock) (hq : inChunk q) :
    set_blk c q v = some (fun j => if (j.val : Int) = linIdx q then v else c j) := by
  unfold set_blk
  rw [if_pos (linIdx_bounds hq)]

/-- Inserting at an already-present key keeps which keys are present. -/
theorem presence_set_existing (m : MapgenMap) (p : V3) (c c' : MapChunk) (q : V3)
    (hg : chunksGet m p = some c) :
    (chunksGet (chunksSet m p c') q).isSome = (chunksGet m q).isSome := by
  rw [chunksGet_chunksSet]
  by_cases hq : q = p
  · subst hq
    rw [if_pos rfl, hg]
    rfl
  · rw [if_neg hq]

/-- The write of one stamping target, when the owning chunk is cached. -/
theorem mapSetBlk_cached (m : MapgenMap) (pos : V3) (v : MapBlock) (c : MapChunk)
    (hg : chunksGet m (btchn pos) = some c) :
    mapSetBlk m pos v = some (chunksSet m (btchn pos)
      { c with data := fun j => if (j.val : Int) = linIdx (btpic pos) then v else c.data j }) := by
  simp only [mapSetBlk, hg, set_blk_some c.data (btpic pos) v (btpic_inChunk pos)]

/-- The unwrap panic of one stamping target, when the owning chunk is absent. -/
theorem mapSetBlk_absent (m : MapgenMap) (pos : V3) (v : MapBlock)
    (hg : chunksGet m (btchn pos) = none) :
    mapSetBlk m pos v = none := by
  simp only [mapSetBlk, hg]

/-- A failed stamping fold stays failed. -/
theorem spawn_fold_none (items : List (V3 × MapBlock)) (pos : V3) :
    items.foldl (fun om it => om.bind (fun m => mapSetBlk m (pos.add it.1) it.2)) none
      = none := by
  induction items with
  | nil => rfl
  | cons it rest ih =>
    rw [List.foldl_cons]
    exact ih

/-- Stamping a schematic succeeds exactly when every target position has
    its owning chunk in the cache. -/
theorem spawn_schematic_iff (m : MapgenMap) (pos : V3)
    (items : List (V3 × MapBlock)) :
    (spawn_schematic_mapgen m pos items).isSome = true ↔
      ∀ it ∈ items, (chunksGet m (btchn (pos.add it.1))).isSome = true := by
  induction items generalizing m with
  | nil => simp [spawn_schematic_mapgen]
  | cons it rest ih =>
    rw [show spawn_schematic_mapgen m pos (it :: rest)
      = rest.foldl (fun om it => om.bind (fun m => mapSetBlk m (pos.add it.1) it.2))
          (mapSetBlk m (pos.add it.1) it.2) from rfl]
    cases hg : chunksGet m (btchn (pos.add it.1)) with
    | none =>
      rw [mapSetBlk_absent m _ it.2 hg, spawn_fold_none]
      simp only [Option.isSome_none, Bool.false_eq_true, false_iff]
      intro hall
      have := hall it (List.mem_cons_self it rest)
      rw [hg] at this
      cases this
    | some c =>
      rw [mapSetBlk_cached m _ it.2 c hg]
      rw [show (rest.foldl (fun om it => om.bind (fun m => mapSetBlk m (pos.add it.1) it.2))
        (some (chunksSet m (btchn (pos.add it.1))
          { c with data := fun j =>
              if (j.val : Int) = linIdx (btpic (pos.add it.1)) then it.2 else c.data j })))
        = spawn_schematic_mapgen (chunksSet m (btchn (pos.add it.1))
          { c with data := fun j =>
              if (j.val : Int) = linIdx (btpic (pos.add it.1)) then it.2 else c.data j })
          pos rest from rfl]
      rw [ih]
      constructor
      · intro hall
        intro it2 hit2
        rcases List.mem_cons.mp hit2 with rfl | hmem
        · rw [hg]
          rfl
        · have := hall it2 hmem
          rwa [presence_set_existing m _ c _ _ hg] at this
      · intro hall it2 hit2
        rw [presence_set_existing m _ c _ _ hg]
        exact hall it2 (List.mem_cons_of_mem it hit2)

/-- C4 counterexample: phase one of the origin chunk produces the spawn
    point (31,31,5); stamping the tree schematic there must write into the
    neighboring chunk at (0,32,0) (the canopy reaches y = 32), but that
    chunk is absent from the cache and is not generated on demand: the
    lookup fails and stamping (and hence phase two of the origin chunk)
    panics, modelled as none. -/
theorem C4_absent_neighbor_panics_counterexample :
    (gen_chunk_phase_one oC4 ⟨0, 0, 0⟩).tree_spawn_points = [⟨31, 31, 5⟩] ∧
    (chunksGet mC4 ⟨0, 32, 0⟩).isSome = false ∧
    (spawn_schematic_mapgen mC4 ⟨31, 31, 5⟩ tree_schematic_items).isSome = false ∧
    (gen_chunk_phase_two mC4 ⟨0, 0, 0⟩).isSome = false := by
  decide!

/-- C4 amended: stamping writes each (anchor+offset, block) pair into the
    cached chunk owning that absolute position (at its in-chunk position);
    if the owning chunk is absent the stamping write panics instead of
    generating the chunk on demand, and a whole schematic stamp succeeds
    exactly when every target owning chunk is already cached. -/
theorem C4_stamping_requires_cached_owner :
    (∀ (m : MapgenMap) (pos : V3) (v : MapBlock) (c : MapChunk),
      chunksGet m (btchn pos) = some c →
      mapSetBlk m pos v = some (chunksSet m (btchn pos)
        { c with data := fun j =>
            if (j.val : Int) = linIdx (btpic pos) then v else c.data j })) ∧
    (∀ (m : MapgenMap) (pos : V3) (v : MapBlock),
      chunksGet m (btchn pos) = none → mapSetBlk m pos v = none) ∧
    (∀ (m : MapgenMap) (pos : V3) (items : List (V3 × MapBlock)),
      (spawn_schematic_mapgen m pos items).isSome = true ↔
        ∀ it ∈ items, (chunksGet m (btchn (pos.add it.1))).isSome = true) :=
  ⟨mapSetBlk_cached, mapSetBlk_absent, spawn_schematic_iff⟩

/-- C4 amended witness: a write into the cached origin chunk succeeds, a
    write into an empty cache panics, and stamping the tree schematic well
    inside the cached chunk succeeds. -/
theorem C4_stamping_requires_cached_owner_witness :
    mapSetBlk mOne ⟨1, 2, 3⟩ MapBlock.Water = some (chunksSet mOne (btchn ⟨1, 2, 3⟩)
      { airChunk with data := fun j =>
          if (j.val : Int) = linIdx (btpic ⟨1, 2, 3⟩) then MapBlock.Water
          else airChunk.data j }) ∧
    mapSetBlk emptyMapgen ⟨1, 2, 3⟩ MapBlock.Water = none ∧
    (spawn_schematic_mapgen mOne ⟨5, 5, 5⟩ tree_schematic_items).isSome = true :=
  ⟨C4_stamping_requires_cached_owner.1 mOne ⟨1, 2, 3⟩ MapBlock.Water airChunk rfl,
   C4_stamping_requires_cached_owner.2.1 emptyMapgen ⟨1, 2, 3⟩ MapBlock.Water rfl,
   (C4_stamping_requires_cached_owner.2.2 mOne ⟨5, 5, 5⟩ tree_schematic_items).mpr
     (by decide)⟩

theorem doneAt_chunksSet (m : MapgenMap) (p : V3) (c : MapChunk) (q : V3) :
    doneAt (chunksSet m p c) q
      = if q = p then (c.generation_phase == GenerationPhase.Done) else doneAt m q := by
  unfold doneAt
  rw [chunksGet_chunksSet]
  by_cases h : q = p
  · rw [if_pos h, if_pos h]
  · rw [if_neg h, if_neg h]

/-- Phase-one generation of one coordinate preserves Done marks. -/
theorem genChunkPhaseOneM_done (o : NoiseOracle) (m : MapgenMap) (pos q : V3)
    (h : doneAt m q = true) : doneAt (genChunkPhaseOneM o m pos) q = true := by
  unfold genChunkPhaseOneM
  cases hg : chunksGet m pos with
  | some c => exact h
  | none =>
    rw [doneAt_chunksSet]
    by_cases hq : q = pos
    · subst hq
      simp only [doneAt, hg] at h
      exact absurd h (by decide)
    · rw [if_neg hq]
      exact h

/-- The phase-one pass preserves Done marks. -/
theorem p1_fold_done (o : NoiseOracle) (coords : List V3) (m : MapgenMap) (q : V3)
    (h : doneAt m q = true) :
    doneAt (coords.foldl (genChunkPhaseOneM o) m) q = true := by
  induction coords generalizing m with
  | nil => exact h
  | cons p t ih =>
    rw [List.foldl_cons]
    exact ih _ (genChunkPhaseOneM_done o m p q h)

/-- A stamping write keeps every Done mark exactly as it was. -/
theorem mapSetBlk_done (m : MapgenMap) (pos : V3) (v : MapBlock) (m' : MapgenMap)
    (h : mapSetBlk m pos v = some m') (q : V3) : doneAt m' q = doneAt m q := by
  cases hg : chunksGet m (btchn pos) with
  | none =>
    rw [mapSetBlk_absent m pos v hg] at h
    cases h
  | some c =>
    rw [mapSetBlk_cached m pos v c hg] at h
    injection h with h2
    subst h2
    rw [doneAt_chunksSet]
    by_cases hq : q = btchn pos
    · subst hq
      rw [if_pos rfl]
      simp only [doneAt, hg]
    · rw [if_neg hq]

/-- Stamping a schematic keeps every Done mark exactly as it was. -/
theorem spawn_schematic_done (items : List (V3 × MapBlock)) (pos : V3)
    (m m' : MapgenMap) (h : spawn_schematic_mapgen m pos items = some m') (q : V3) :
    doneAt m' q = doneAt m q := by
  induction items generalizing m with
  | nil =>
    injection h with h2
    rw [h2]
  | cons it rest ih =>
    rw [show spawn_schematic_mapgen m pos (it :: rest)
      = rest.foldl (fun om it => om.bind (fun m => mapSetBlk m (pos.add it.1) it.2))
          (mapSetBlk m (pos.add it.1) it.2) from rfl] at h
    cases hset : mapSetBlk m (pos.add it.1) it.2 with
    | none =>
      rw [hset, spawn_fold_none] at h
      cases h
    | some m1 =>
      rw [hset] at h
      rw [ih m1 h, mapSetBlk_done m (pos.add it.1) it.2 m1 hset q]

/-- A failed tree-stamping fold stays failed. -/
theorem tree_fold_none (pts : List V3) :
    pts.foldl (fun om p => om.bind (fun mm => spawn_tree_mapgen mm p)) none = none := by
  induction pts with
  | nil => rfl
  | cons p t ih =>
    rw [List.foldl_cons]
    exact ih

/-- The tree-stamping fold of phase two keeps every Done mark. -/
theorem tree_fold_done (pts : List V3) (m m' : MapgenMap)
    (h : pts.foldl (fun om p => om.bind (fun mm => spawn_tree_mapgen mm p)) (some m)
      = some m') (q : V3) : doneAt m' q = doneAt m q := by
  induction pts generalizing m with
  | nil =>
    injection h with h2
    rw [h2]
  | cons p t ih =>
    rw [List.foldl_cons] at h
    cases hsp : spawn_tree_mapgen m p with
    | none =>
      rw [show (Option.bind (some m) fun mm => spawn_tree_mapgen mm p) = none from hsp] at h
      rw [tree_fold_none] at h
      cases h
    | some m1 =>
      rw [show (Option.bind (some m) fun mm => spawn_tree_mapgen mm p) = some m1 from hsp] at h
      rw [ih m1 h, spawn_schematic_done tree_schematic_items p m m1 hsp q]

/-- Phase two of one chunk keeps every Done mark exactly as it was: a Done
    chunk is skipped, and a PhaseOne chunk only advances to PhaseTwo. -/
theorem gen_chunk_phase_two_done (m : MapgenMap) (pos : V3) (m' : MapgenMap)
    (h : gen_chunk_phase_two m pos = some m') (q : V3) : doneAt m' q = doneAt m q := by
  cases hg : chunksGet m pos with
  | none =>
    simp only [gen_chunk_phase_two, hg] at h
    exact Option.noConfusion h
  | some c =>
    simp only [gen_chunk_phase_two, hg] at h
    by_cases hph : (GenerationPhase.PhaseTwo).idx ≤ c.generation_phase.idx
    · rw [if_pos hph] at h
      injection h with h2
      rw [h2]
    · rw [if_neg hph] at h
      have h3 := tree_fold_done _ _ _ h q
      rw [h3, doneAt_chunksSet]
      by_cases hq : q = pos
      · subst hq
        rw [if_pos rfl]
        simp only [doneAt, hg]
        have : c.generation_phase = GenerationPhase.PhaseOne := by
          cases hc : c.generation_phase
          · rfl
          · rw [hc] at hph
            exact absurd (le_refl _) hph
          · rw [hc] at hph
            exact absurd (by decide) hph
        rw [this]
        rfl
      · rw [if_neg hq]

/-- A failed phase-two fold stays failed. -/
theorem p2_fold_none (coords : List V3) :
    coords.foldl (fun om p => om.bind (fun mm => gen_chunk_phase_two mm p)) none
      = none := by
  induction coords with
  | nil => rfl
  | cons p t ih =>
    rw [List.foldl_cons]
    exact ih

/-- The phase-two pass keeps every Done mark. -/
theorem p2_fold_done (coords : List V3) (m m' : MapgenMap)
    (h : coords.foldl (fun om p => om.bind (fun mm => gen_chunk_phase_two mm p)) (some m)
      = some m') (q : V3) : doneAt m' q = doneAt m q := by
  induction coords generalizing m with
  | nil =>
    injection h with h2
    rw [h2]
  | cons p t ih =>
    rw [List.foldl_cons] at h
    cases hp2 : gen_chunk_phase_two m p with
    | none =>
      rw [show (Option.bind (some m) fun mm => gen_chunk_phase_two mm p) = none from hp2] at h
      rw [p2_fold_none] at h
      cases h
    | some m1 =>
      rw [show (Option.bind (some m) fun mm => gen_chunk_phase_two mm p) = some m1 from hp2] at h
      rw [ih m1 h, gen_chunk_phase_two_done m p m1 hp2 q]

theorem deliver_none (coords : List V3) : deliverChunks coords none = none := by
  induction coords with
  | nil => rfl
  | cons p t ih =>
    rw [deliverChunks, List.foldl_cons]
    exact ih

theorem deliverChunks_cons (p : V3) (t : List V3)
    (acc : Option (MapgenMap × List (V3 × MapChunkData))) :
    deliverChunks (p :: t) acc = deliverChunks t
      (match acc with
      | none => none
      | some (m, out) =>
        match chunksGet m p with
        | none => none
        | some c =>
          if c.generation_phase == GenerationPhase.Done then some (m, out)
          else some (chunksSet m p { c with generation_phase := .Done },
            out ++ [(p, c.data)])) := rfl

/-- Marking one chunk Done preserves existing Done marks. -/
theorem doneAt_mark (m : MapgenMap) (p : V3) (c : MapChunk) (q : V3)
    (h : doneAt m q = true) :
    doneAt (chunksSet m p { c with generation_phase := .Done }) q = true := by
  rw [doneAt_chunksSet]
  by_cases hq : q = p
  · rw [if_pos hq]
    rfl
  · rw [if_neg hq]
    exact h

/-- The delivery loop: delivered coordinates are pairwise distinct, Done
    afterwards, and were not Done before; existing Done marks persist. -/
theorem deliver_invariant (coords : List V3) :
    ∀ (m0 : MapgenMap) (out0 : List (V3 × MapChunkData)) (m' : MapgenMap)
      (out' : List (V3 × MapChunkData)),
    deliverChunks coords (some (m0, out0)) = some (m', out') →
    (out0.map Prod.fst).Nodup →
    (∀ p ∈ out0.map Prod.fst, doneAt m0 p = true) →
    (out'.map Prod.fst).Nodup ∧ (∀ p ∈ out'.map Prod.fst, doneAt m' p = true) ∧
      (∀ q, doneAt m0 q = true → doneAt m' q = true) ∧
      (∀ p ∈ out'.map Prod.fst, p ∉ out0.map Prod.fst → doneAt m0 p = false) := by
  induction coords with
  | nil =>
    intro m0 out0 m' out' h hnd hdone
    injection h with h2
    injection h2 with ha hb
    subst ha
    subst hb
    exact ⟨hnd, hdone, fun q hq => hq, fun p hp hnp => absurd hp hnp⟩
  | cons p t ih =>
    intro m0 out0 m' out' h hnd hdone
    rw [deliverChunks_cons] at h
    cases hg : chunksGet m0 p with
    | none =>
      simp only [hg] at h
      rw [deliver_none] at h
      cases h
    | some c =>
      simp only [hg] at h
      by_cases hdon : (c.generation_phase == GenerationPhase.Done) = true
      · rw [if_pos hdon] at h
        exact ih m0 out0 m' out' h hnd hdone
      · rw [if_neg hdon] at h
        have hm0p : doneAt m0 p = false := by
          simp only [doneAt, hg]
          exact Bool.not_eq_true _ ▸ (Bool.eq_false_iff.mpr hdon)
        have hpnotin : p ∉ out0.map Prod.fst := by
          intro hin
          rw [hdone p hin] at hm0p
          cases hm0p
        have hnd1 : ((out0 ++ [(p, c.data)]).map Prod.fst).Nodup := by
          rw [List.map_append]
          refine List.Nodup.append hnd (by simp) ?_
          intro a ha hb
          simp only [List.map_cons, List.map_nil, List.mem_singleton] at hb
          subst hb
          exact hpnotin ha
        have hdone1 : ∀ q ∈ (out0 ++ [(p, c.data)]).map Prod.fst,
            doneAt (chunksSet m0 p { c with generation_phase := .Done }) q = true := by
          intro q hq
          rw [List.map_append] at hq
          rcases List.mem_append.mp hq with hq0 | hq1
          · exact doneAt_mark m0 p c q (hdone q hq0)
          · simp only [List.map_cons, List.map_nil, List.mem_singleton] at hq1
            subst hq1
            rw [doneAt_chunksSet, if_pos rfl]
            rfl
        obtain ⟨nd2, done2, pers2, new2⟩ :=
          ih (chunksSet m0 p { c with generation_phase := .Done })
            (out0 ++ [(p, c.data)]) m' out' h hnd1 hdone1
        refine ⟨nd2, done2, ?_, ?_⟩
        · intro q hq
          exact pers2 q (doneAt_mark m0 p c q hq)
        · intro p2 hp2 hnp2
          by_cases hpp : p2 = p
          · subst hpp
            exact hm0p
          · have hnotin1 : p2 ∉ (out0 ++ [(p, c.data)]).map Prod.fst := by
              rw [List.map_append]
              intro hin
              rcases List.mem_append.mp hin with h0 | h1
              · exact hnp2 h0
              · simp only [List.map_cons, List.map_nil, List.mem_singleton] at h1
                exact hpp h1
            have hm1 := new2 p2 hp2 hnotin1
            cases hb : doneAt m0 p2 with
            | false => rfl
            | true =>
              rw [doneAt_mark m0 p c p2 hb] at hm1
              cases hm1

/-- One area call: Done marks persist, and the delivered chunks are
    pairwise distinct, Done afterwards, and not Done before the call. -/
theorem gen_area_invariant (o : NoiseOracle) (m : MapgenMap) (pmin pmax : V3)
    (m' : MapgenMap) (out : List (V3 × MapChunkData))
    (h : gen_chunks_in_area o m pmin pmax = some (m', out)) :
    (∀ q, doneAt m q = true → doneAt m' q = true) ∧
    (out.map Prod.fst).Nodup ∧
    (∀ p ∈ out.map Prod.fst, doneAt m' p = true) ∧
    (∀ p ∈ out.map Prod.fst, doneAt m p = false) := by
  simp only [gen_chunks_in_area] at h
  cases hb : (areaChunks (toChunkCoord pmin) (toChunkCoord pmax)).any
      (fun p => !(doneAt m p)) with
  | false =>
    rw [hb] at h
    simp only [Bool.not_false, if_true] at h
    injection h with h2
    injection h2 with ha hout
    subst ha
    subst hout
    exact ⟨fun q hq => hq, by simp, by simp, by simp⟩
  | true =>
    rw [hb] at h
    simp only [Bool.not_true, Bool.false_eq_true, if_false] at h
    cases hr2 : (areaChunks
        ⟨(toChunkCoord pmin).x - 1, (toChunkCoord pmin).y - 1, (toChunkCoord pmin).z - 1⟩
        ⟨(toChunkCoord pmax).x + 1, (toChunkCoord pmax).y + 1, (toChunkCoord pmax).z + 1⟩).foldl
        (fun om p => om.bind (fun mm => gen_chunk_phase_two mm p))
        (some ((areaChunks
          ⟨(toChunkCoord pmin).x - 2, (toChunkCoord pmin).y - 2, (toChunkCoord pmin).z - 2⟩
          ⟨(toChunkCoord pmax).x + 2, (toChunkCoord pmax).y + 2, (toChunkCoord pmax).z + 2⟩).foldl
          (genChunkPhaseOneM o) m)) with
    | none =>
      rw [hr2] at h
      cases h
    | some m2 =>
      rw [hr2] at h
      have hdel := deliver_invariant (areaChunks (toChunkCoord pmin) (toChunkCoord pmax))
        m2 [] m' out h (by simp) (by simp)
      have hpers : ∀ q, doneAt m q = true → doneAt m2 q = true := by
        intro q hq
        rw [p2_fold_done _ _ _ hr2 q]
        exact p1_fold_done o _ m q hq
      refine ⟨fun q hq => hdel.2.2.1 q (hpers q hq), hdel.1, hdel.2.1, ?_⟩
      intro p hp
      have hm2 := hdel.2.2.2 p hp (by simp)
      cases hbq : doneAt m p with
      | false => rfl
      | true =>
        rw [hpers p hbq] at hm2
        cases hm2

/-- Across a request sequence: Done marks persist, and delivered chunks
    are pairwise distinct, Done at the end, and not Done at the start. -/
theorem runSeq_invariant (o : NoiseOracle) (calls : List (V3 × V3)) :
    ∀ (m mf : MapgenMap) (outs : List (V3 × MapChunkData)),
    runSeq o m calls = some (mf, outs) →
    (∀ q, doneAt m q = true → doneAt mf q = true) ∧
    (outs.map Prod.fst).Nodup ∧
    (∀ p ∈ outs.map Prod.fst, doneAt mf p = true) ∧
    (∀ p ∈ outs.map Prod.fst, doneAt m p = false) := by
  induction calls with
  | nil =>
    intro m mf outs h
    injection h with h2
    injection h2 with ha hout
    subst ha
    subst hout
    exact ⟨fun q hq => hq, by simp, by simp, by simp⟩
  | cons c rest ih =>
    intro m mf outs h
    simp only [runSeq] at h
    cases hc : gen_chunks_in_area o m c.1 c.2 with
    | none =>
      rw [hc] at h
      cases h
    | some r1 =>
      obtain ⟨m1, out1⟩ := r1
      simp only [hc] at h
      cases hr : runSeq o m1 rest with
      | none =>
        simp only [hr] at h
        exact Option.noConfusion h
      | some r2 =>
        obtain ⟨m2, outs2⟩ := r2
        simp only [hr] at h
        injection h with h2
        injection h2 with ha hout
        subst ha
        subst hout
        obtain ⟨pers1, nd1, done1, new1⟩ := gen_area_invariant o m c.1 c.2 m1 out1 hc
        obtain ⟨pers2, nd2, done2, new2⟩ := ih m1 m2 outs2 hr
        have hdisj : ∀ p ∈ out1.map Prod.fst, p ∉ outs2.map Prod.fst := by
          intro p hp hin2
          have hd1 := done1 p hp
          have hnd2 := new2 p hin2
          rw [hd1] at hnd2
          cases hnd2
        refine ⟨fun q hq => pers2 q (pers1 q hq), ?_, ?_, ?_⟩
        · rw [List.map_append]
          exact List.Nodup.append nd1 nd2 hdisj
        · intro p hp
          rw [List.map_append] at hp
          rcases List.mem_append.mp hp with h1 | h2
          · exact pers2 p (done1 p h1)
          · exact done2 p h2
        · intro p hp
          rw [List.map_append] at hp
          rcases List.mem_append.mp hp with h1 | h2
          · exact new1 p h1
          · have hm1 := new2 p h2
            cases hbq : doneAt m p with
            | false => rfl
            | true =>
              rw [pers1 p hbq] at hm1
              cases hm1

/-- C8: across any sequence of gen_chunks_in_area calls on a fresh
    MapgenMap, each chunk coordinate is delivered to the callback at most
    once, every delivered chunk is marked Done in the final cache (the loop
    marks a chunk Done in the same step that records its delivery, before
    the callback could observe it), and a call whose entire requested range
    is already Done performs no generation and issues zero callback
    invocations. -/
theorem C8_delivery_at_most_once :
    (∀ (o : NoiseOracle) (calls : List (V3 × V3)),
      delivProps (runSeq o emptyMapgen calls)) ∧
    (∀ (o : NoiseOracle) (m : MapgenMap) (pos_min pos_max : V3),
      (areaChunks (toChunkCoord pos_min) (toChunkCoord pos_max)).all
        (fun p => doneAt m p) = true →
      gen_chunks_in_area o m pos_min pos_max = some (m, [])) := by
  constructor
  · intro o calls
    cases h : runSeq o emptyMapgen calls with
    | none => trivial
    | some r =>
      obtain ⟨mf, outs⟩ := r
      have B := runSeq_invariant o calls emptyMapgen mf outs h
      exact ⟨B.2.1, B.2.2.1⟩
  · intro o m pmin pmax hall
    have hany : (areaChunks (toChunkCoord pmin) (toChunkCoord pmax)).any
        (fun p => !(doneAt m p)) = false := by
      rw [List.any_eq_false]
      intro x hx
      rw [List.all_eq_true] at hall
      simp [hall x hx]
    simp [gen_chunks_in_area, hany]

/-- C8 witness: a call whose single requested chunk is already Done
    changes nothing and delivers nothing. -/
theorem C8_delivery_at_most_once_witness :
    gen_chunks_in_area oFlat (chunksSet emptyMapgen ⟨0, 0, 0⟩ doneChunk)
      ⟨0, 0, 0⟩ ⟨0, 0, 0⟩
      = some (chunksSet emptyMapgen ⟨0, 0, 0⟩ doneChunk, []) :=
  C8_delivery_at_most_once.2 oFlat (chunksSet emptyMapgen ⟨0, 0, 0⟩ doneChunk)
    ⟨0, 0, 0⟩ ⟨0, 0, 0⟩ (by decide)
end Mimas
